import Mathlib

/-!
Verification of the TextDigest batch-processing and cross-document analysis
pipeline.  The definitions below are a shallow embedding of the TypeScript
source (content processor, LLM summarization gateway, fact analyzer,
knowledge-graph builder, semantic clusterer).  JavaScript machine numbers are
modelled as `ℚ` (the source only performs exact small-integer arithmetic and
divisions in the verified claims), JS `Map`/`Set` as insertion-ordered
association lists/duplicate-free lists, asynchronous functions as pure
functions describing their eventual results, and the external NLP/clustering
libraries (`natural`'s TfIdf, `ml-kmeans`, `Math.sqrt`) as oracle parameters,
universally quantified in the theorems.
-/

/-- JS `Map.get(k)` over an insertion-ordered association list. -/
def lookupKey {β : Type} (k : String) : List (String × β) → Option β
  | [] => none
  | kv :: rest => if kv.1 = k then some kv.2 else lookupKey k rest

/-- State machine for JS `str.split(/\s+/)`: `cur = some f` holds the current
fragment (reversed) while scanning it, `cur = none` means a whitespace run is
being consumed as one separator. -/
def jsSplitWsGo (cur : Option (List Char)) : List Char → List String
  | [] =>
    match cur with
    | some f => [String.mk f.reverse]
    | none => [""]
  | c :: cs =>
    match cur, c.isWhitespace with
    | some f, true => String.mk f.reverse :: jsSplitWsGo none cs
    | some f, false => jsSplitWsGo (some (c :: f)) cs
    | none, true => jsSplitWsGo none cs
    | none, false => jsSplitWsGo (some [c]) cs

/-- Model of JS `str.split(/\s+/)`: splits at maximal whitespace runs; the
empty string yields `[""]`, and leading/trailing whitespace yields empty
fragments, exactly as in JavaScript.  `Char.isWhitespace` stands in for the
regex class `\s` (they agree on ASCII). -/
def jsSplitWs (s : String) : List String := jsSplitWsGo (some []) s.data

/-- JS `String.prototype.trim` (ASCII whitespace). -/
def jsTrim (s : String) : String :=
  String.mk (((s.data.dropWhile Char.isWhitespace).reverse.dropWhile Char.isWhitespace).reverse)

/-- JS `String.prototype.toLowerCase`; `Char.toLower` covers the ASCII range
handled identically by JavaScript. -/
def jsToLowerCase (s : String) : String := String.mk (s.data.map Char.toLower)

/-- File metadata; only the path is consumed by the verified core
(`size`/`modifiedAt` feed the prompt text, which is abstracted into the
provider oracles). -/
structure FileMetadata where
  path : String
deriving DecidableEq, Repr

/-- `FileContent` from `types.ts`; `encoding`/`lineCount`/`wordCount` are
produced by the reader and never consumed by the verified core. -/
structure FileContent where
  metadata : FileMetadata
  content : String
deriving DecidableEq, Repr

/-- `Batch<T>` from `types.ts`.  `id` is a `randomUUID()` in the source
(an opaque fresh string) and `createdAt` a wall-clock stamp; the model keeps
`id` as an uninterpreted string and omits the timestamp, neither is consumed
by any later stage. -/
structure Batch (τ : Type) where
  id : String
  items : List τ
  totalSize : ℕ
deriving DecidableEq, Repr

/-- `createBatches` from the content-processor module: chunks the input into
contiguous slices of `batchSize`, computing each batch's combined content
length.  With `batchSize = 0` the source's `for (i += batchSize)` loop never
terminates; the model returns `[]` in that unreachable-by-contract case (all
claims assume a positive batch size). -/
def createBatches (batchSize : ℕ) (contents : List FileContent) : List (Batch FileContent) :=
  match batchSize, contents with
  | _, [] => []
  | 0, _ :: _ => []
  | b + 1, c :: cs =>
    let items := (c :: cs).take (b + 1)
    { id := "batch", items := items,
      totalSize := (items.map (fun it => it.content.length)).sum } ::
      createBatches (b + 1) ((c :: cs).drop (b + 1))
termination_by contents.length
decreasing_by
  simp only [List.length_drop, List.length_cons]
  omega

/-- `processBatchesInParallel` from the content-processor module.  The
processor is the pure description of the per-batch results eventually
delivered by the async callback; `Promise.all` preserves the positional order
of its input array, so each chunk contributes its per-batch result lists in
batch order.  As with `createBatches`, `maxConcurrent = 0` loops forever in
the source and is modelled as `[]`. -/
def processBatchesInParallel {τ ρ : Type} (processor : Batch τ → List ρ)
    (maxConcurrent : ℕ) (batches : List (Batch τ)) : List ρ :=
  match maxConcurrent, batches with
  | _, [] => []
  | 0, _ :: _ => []
  | m + 1, b :: bs =>
    (((b :: bs).take (m + 1)).map processor).flatten ++
      processBatchesInParallel processor (m + 1) ((b :: bs).drop (m + 1))
termination_by batches.length
decreasing_by
  simp only [List.length_drop, List.length_cons]
  omega

theorem createBatches_nil (B : ℕ) : createBatches B [] = [] := by
  cases B <;> rw [createBatches]

theorem createBatches_spec_aux (b : ℕ) :
    ∀ n (contents : List FileContent), contents.length ≤ n →
      (createBatches (b + 1) contents).length = (contents.length + b) / (b + 1) ∧
      (∀ batch ∈ createBatches (b + 1) contents, batch.items.length ≤ b + 1) ∧
      ((createBatches (b + 1) contents).map Batch.items).flatten = contents := by
  intro n
  induction n with
  | zero =>
    intro contents h
    have hnil : contents = [] := List.eq_nil_of_length_eq_zero (Nat.le_zero.mp h)
    subst hnil
    refine ⟨?_, by simp [createBatches_nil], by simp [createBatches_nil]⟩
    simp only [createBatches_nil, List.length_nil]
    exact (Nat.div_eq_of_lt (by omega : 0 + b < b + 1)).symm
  | succ n ih =>
    intro contents h
    match contents with
    | [] =>
      refine ⟨?_, by simp [createBatches_nil], by simp [createBatches_nil]⟩
      simp only [createBatches_nil, List.length_nil]
      exact (Nat.div_eq_of_lt (by omega : 0 + b < b + 1)).symm
    | c :: cs =>
      rw [createBatches]
      have hdrop : ((c :: cs).drop (b + 1)).length ≤ n := by
        simp only [List.length_drop, List.length_cons]
        simp only [List.length_cons] at h
        omega
      obtain ⟨ih1, ih2, ih3⟩ := ih _ hdrop
      refine ⟨?_, ?_, ?_⟩
      · simp only [List.length_cons, ih1, List.length_drop]
        rcases le_or_lt (b + 1) (cs.length + 1) with hle | hlt
        · have h1 : cs.length + 1 - (b + 1) + b = cs.length := by omega
          have h2 : cs.length + 1 + b = cs.length + (b + 1) := by omega
          rw [h1, h2, Nat.add_div_right _ (Nat.succ_pos b)]
        · have h1 : cs.length + 1 - (b + 1) = 0 := by omega
          have h2 : (0 + b) / (b + 1) = 0 := Nat.div_eq_of_lt (by omega)
          have h3 : (cs.length + 1 + b) / (b + 1) = 1 := by
            have := Nat.div_eq_of_lt_le
              (by omega : 1 * (b + 1) ≤ cs.length + 1 + b)
              (by omega : cs.length + 1 + b < (1 + 1) * (b + 1))
            simpa using this
          rw [h1, h2, h3]
      · intro batch hb
        rcases List.mem_cons.mp hb with hhead | htail
        · subst hhead
          simp only [List.length_take, List.length_cons]
          omega
        · exact ih2 batch htail
      · simp only [List.map_cons, List.flatten_cons, ih3]
        exact List.take_append_drop _ _

/-- Claim C3: for every input sequence and batch size `B > 0`, `createBatches`
produces exactly `⌈N / B⌉` batches, each holding at most `B` documents, whose
concatenation in order is exactly the input; empty input yields no batches. -/
theorem createBatches_partition (contents : List FileContent) (B : ℕ) (hB : 0 < B) :
    (createBatches B contents).length = (contents.length + B - 1) / B ∧
    (∀ batch ∈ createBatches B contents, batch.items.length ≤ B) ∧
    ((createBatches B contents).map Batch.items).flatten = contents ∧
    (contents = [] → createBatches B contents = []) := by
  obtain ⟨b, rfl⟩ : ∃ b, B = b + 1 := ⟨B - 1, by omega⟩
  obtain ⟨h1, h2, h3⟩ := createBatches_spec_aux b contents.length contents le_rfl
  refine ⟨?_, h2, h3, ?_⟩
  · have hc : contents.length + (b + 1) - 1 = contents.length + b := by omega
    rw [hc]
    exact h1
  · rintro rfl
    exact createBatches_nil _

/-- Demo document used by concrete witnesses. -/
def demoFile (p : String) : FileContent := ⟨⟨p⟩, p⟩

/-- Demo input sequence of five documents. -/
def demoContents : List FileContent :=
  [demoFile "a.txt", demoFile "b.txt", demoFile "c.txt", demoFile "d.txt", demoFile "e.txt"]

theorem createBatches_partition_witness :
    0 < 2 ∧
      ((createBatches 2 demoContents).length = (demoContents.length + 2 - 1) / 2 ∧
        (∀ batch ∈ createBatches 2 demoContents, batch.items.length ≤ 2) ∧
        ((createBatches 2 demoContents).map Batch.items).flatten = demoContents ∧
        (demoContents = [] → createBatches 2 demoContents = [])) :=
  ⟨by decide, createBatches_partition demoContents 2 (by decide)⟩

theorem processBatches_aux {τ ρ : Type} (proc : Batch τ → List ρ) (m : ℕ) :
    ∀ n (batches : List (Batch τ)), batches.length ≤ n →
      processBatchesInParallel proc (m + 1) batches = (batches.map proc).flatten := by
  intro n
  induction n with
  | zero =>
    intro batches h
    have hnil : batches = [] := List.eq_nil_of_length_eq_zero (Nat.le_zero.mp h)
    subst hnil
    rw [processBatchesInParallel]
    rfl
  | succ n ih =>
    intro batches h
    match batches with
    | [] =>
      rw [processBatchesInParallel]
      rfl
    | b :: bs =>
      rw [processBatchesInParallel]
      have hdrop : ((b :: bs).drop (m + 1)).length ≤ n := by
        simp only [List.length_drop, List.length_cons]
        simp only [List.length_cons] at h
        omega
      rw [ih _ hdrop, ← List.flatten_append, ← List.map_append, List.take_append_drop]

/-- Claim C4: for every batch list, batch-processing function and concurrency
cap `C > 0`, `processBatchesInParallel` returns the flattened concatenation of
the per-batch result lists in batch order, so the result count is the sum of
the per-batch counts and no batch's results are reordered relative to
another's. -/
theorem processBatchesInParallel_flatten {τ ρ : Type} (batches : List (Batch τ))
    (proc : Batch τ → List ρ) (C : ℕ) (hC : 0 < C) :
    processBatchesInParallel proc C batches = (batches.map proc).flatten ∧
    (processBatchesInParallel proc C batches).length =
      (batches.map fun b => (proc b).length).sum := by
  obtain ⟨m, rfl⟩ : ∃ m, C = m + 1 := ⟨C - 1, by omega⟩
  have h := processBatches_aux proc m batches.length batches le_rfl
  refine ⟨h, ?_⟩
  rw [h, List.length_flatten, List.map_map]
  rfl

/-- Demo batches used by the scheduler witness. -/
def demoBatches : List (Batch FileContent) := createBatches 1 demoContents

theorem processBatchesInParallel_flatten_witness :
    0 < 2 ∧
      (processBatchesInParallel (fun b => b.items.map (fun it => it.metadata.path)) 2
          demoBatches =
        (demoBatches.map fun b => b.items.map (fun it => it.metadata.path)).flatten ∧
      (processBatchesInParallel (fun b => b.items.map (fun it => it.metadata.path)) 2
          demoBatches).length =
        (demoBatches.map fun b => (b.items.map (fun it => it.metadata.path)).length).sum) :=
  ⟨by decide,
    processBatchesInParallel_flatten demoBatches
      (fun b => b.items.map (fun it => it.metadata.path)) 2 (by decide)⟩

/-- `FileSummary` from `types.ts`; `statistics` is a string map never consumed
by the verified core and is omitted. -/
structure FileSummary where
  file : FileMetadata
  summary : String
  keyFacts : List String
  insights : List String
  sources : List String
  model : String
  tokens : ℕ
  confidence : ℚ
deriving DecidableEq, Repr

/-- Character-list version of `String.startsWith` (first argument is the
pattern). -/
def startsWithChars : List Char → List Char → Bool
  | [], _ => true
  | _ :: _, [] => false
  | p :: ps, c :: cs => p == c && startsWithChars ps cs

/-- True iff the pattern `"[source:"` occurs somewhere in the text. -/
def hasSourceMarker : List Char → Bool
  | [] => false
  | c :: cs => startsWithChars "[source:".data (c :: cs) || hasSourceMarker cs

/-- Test of the regex `/\[source:/`: true iff the literal `"[source:"` occurs
as a substring. -/
def containsSourceTag (item : String) : Bool :=
  hasSourceMarker item.data

/-- Per-file result object parsed from the provider's JSON, as consumed by
`calculateConfidence`: `keyFacts`/`insights` may be absent (`s.keyFacts || []`
in the source). -/
structure ParsedFileResult where
  keyFacts : Option (List String)
  insights : Option (List String)
deriving DecidableEq, Repr

/-- The `allItems` array of `calculateConfidence`:
`[...(summary.keyFacts || []), ...(summary.insights || [])]`. -/
def allConfidenceItems (summary : ParsedFileResult) : List String :=
  summary.keyFacts.getD [] ++ summary.insights.getD []

/-- `calculateConfidence` from `llm-summarizer.ts`: the fraction of
facts+insights bearing a `[source:` marker, and `0` when there are none. -/
def calculateConfidence (summary : ParsedFileResult) : ℚ :=
  let allItems := allConfidenceItems summary
  if allItems.length = 0 then 0
  else ((allItems.filter containsSourceTag).length : ℚ) / (allItems.length : ℚ)

/-- A configured provider's behaviour on one batch: the eventual parsed
summaries, or the thrown error (network, JSON-parse or schema failure alike
surface as a rejected promise in the source). -/
def Provider : Type := Batch FileContent → Except String (List FileSummary)

/-- `summarizeBatch` from `llm-summarizer.ts`.  `googleAI`/`openAI` are the
lazily-initialized nullable clients (`none` = no API key configured); the
`try` block calls Google when configured, otherwise OpenAI, otherwise throws;
the `catch` retries OpenAI only when both clients are configured, and
otherwise rethrows the primary error. -/
def summarizeBatch (googleAI openAI : Option Provider) (batch : Batch FileContent) :
    Except String (List FileSummary) :=
  let primary : Except String (List FileSummary) :=
    match googleAI, openAI with
    | some g, _ => g batch
    | none, some o => o batch
    | none, none => Except.error "No API keys configured"
  match primary with
  | Except.ok summaries => Except.ok summaries
  | Except.error e =>
    match openAI, googleAI with
    | some o, some _ => o batch
    | _, _ => Except.error e

/-- Conclusions object parsed from the provider's JSON; each field may be
absent (`response.conclusions || []` etc. in the source). -/
structure ParsedConclusions where
  conclusions : Option (List String)
  recommendations : Option (List String)
  evidence : Option (List String)
deriving DecidableEq, Repr

/-- `LLMConclusions` from `types.ts`. -/
structure LLMConclusions where
  conclusions : List String
  recommendations : List String
  evidence : List String
  confidence : ℚ
deriving DecidableEq, Repr

/-- `generateConclusions` from `llm-summarizer.ts`, abstracted over the
provider chain: `providerResponse` is the parsed JSON of whichever configured
provider answered, or the thrown error (also covering the no-keys case).  On
success, confidence is the fraction of evidence strings bearing a `[source:`
marker when `response.evidence?.length > 0`, and `0.5` otherwise (evidence
absent or empty); on failure the empty record with confidence `0` is
returned. -/
def generateConclusions (providerResponse : Except String ParsedConclusions) :
    LLMConclusions :=
  match providerResponse with
  | Except.ok response =>
    let evidenceWithSources := (response.evidence.getD []).filter containsSourceTag
    let confidence : ℚ :=
      match response.evidence with
      | some ev =>
        if 0 < ev.length then (evidenceWithSources.length : ℚ) / (ev.length : ℚ) else 1 / 2
      | none => 1 / 2
    { conclusions := response.conclusions.getD []
      recommendations := response.recommendations.getD []
      evidence := response.evidence.getD []
      confidence := confidence }
  | Except.error _ =>
    { conclusions := [], recommendations := [], evidence := [], confidence := 0 }

/-- Claim C5: with both providers configured, any primary failure makes
`summarizeBatch` return the secondary's outcome for the identical batch — its
summaries if it succeeds (the batch is not marked failed), its error if it
also fails; with no provider configured the whole batch fails. -/
theorem summarizeBatch_fallback (g o : Provider) (batch : Batch FileContent)
    (e : String) (hfail : g batch = Except.error e) :
    summarizeBatch (some g) (some o) batch = o batch ∧
    (∀ r, o batch = Except.ok r → summarizeBatch (some g) (some o) batch = Except.ok r) ∧
    (∀ e2, o batch = Except.error e2 →
      summarizeBatch (some g) (some o) batch = Except.error e2) ∧
    summarizeBatch none none batch = Except.error "No API keys configured" := by
  have hmain : summarizeBatch (some g) (some o) batch = o batch := by
    simp only [summarizeBatch, hfail]
  refine ⟨hmain, ?_, ?_, rfl⟩
  · intro r hr
    rw [hmain, hr]
  · intro e2 he2
    rw [hmain, he2]

/-- Demo batch for the gateway witness. -/
def demoBatch : Batch FileContent := ⟨"demo", [demoFile "a.txt"], 5⟩

/-- A primary provider that always fails. -/
def demoFailingProvider : Provider := fun _ => Except.error "boom"

/-- A secondary provider that always succeeds with no summaries. -/
def demoOkProvider : Provider := fun _ => Except.ok []

theorem summarizeBatch_fallback_witness :
    demoFailingProvider demoBatch = Except.error "boom" ∧
      summarizeBatch (some demoFailingProvider) (some demoOkProvider) demoBatch =
        demoOkProvider demoBatch ∧
      summarizeBatch none none demoBatch = Except.error "No API keys configured" :=
  ⟨rfl,
    (summarizeBatch_fallback demoFailingProvider demoOkProvider demoBatch "boom" rfl).1,
    (summarizeBatch_fallback demoFailingProvider demoOkProvider demoBatch "boom" rfl).2.2.2⟩

/-- Claim C6: the confidence of a parsed per-file result is the number of key
facts and insights containing a `[source:` marker divided by their total
number, `0` when there are none; in particular all tagged gives `1`, none
tagged gives `0`, and exactly half tagged gives `1/2`. -/
theorem calculateConfidence_spec (summary : ParsedFileResult) :
    (allConfidenceItems summary = [] → calculateConfidence summary = 0) ∧
    (allConfidenceItems summary ≠ [] →
      calculateConfidence summary =
        (((allConfidenceItems summary).filter containsSourceTag).length : ℚ) /
          ((allConfidenceItems summary).length : ℚ)) ∧
    ((∀ it ∈ allConfidenceItems summary, containsSourceTag it) →
      allConfidenceItems summary ≠ [] → calculateConfidence summary = 1) ∧
    ((∀ it ∈ allConfidenceItems summary, ¬(containsSourceTag it = true)) →
      calculateConfidence summary = 0) ∧
    (2 * ((allConfidenceItems summary).filter containsSourceTag).length =
        (allConfidenceItems summary).length →
      allConfidenceItems summary ≠ [] → calculateConfidence summary = 1 / 2) := by
  set l := allConfidenceItems summary with hl
  have hgen : l ≠ [] →
      calculateConfidence summary =
        ((l.filter containsSourceTag).length : ℚ) / (l.length : ℚ) := by
    intro hne
    have hlen : l.length ≠ 0 := fun h0 => hne (List.eq_nil_of_length_eq_zero h0)
    simp only [calculateConfidence, ← hl, if_neg hlen]
  refine ⟨?_, hgen, ?_, ?_, ?_⟩
  · intro hnil
    simp only [calculateConfidence, ← hl, hnil]
    simp
  · intro hall hne
    have hfilter : l.filter containsSourceTag = l := List.filter_eq_self.mpr hall
    have hlen : (l.length : ℚ) ≠ 0 := by
      exact_mod_cast fun h0 => hne (List.eq_nil_of_length_eq_zero (by exact_mod_cast h0))
    rw [hgen hne, hfilter, div_self hlen]
  · intro hnone
    rcases eq_or_ne l [] with hnil | hne
    · simp only [calculateConfidence, ← hl, hnil]
      simp
    · have hfilter : l.filter containsSourceTag = [] := by
        rw [List.filter_eq_nil_iff]
        intro a ha
        exact hnone a ha
      rw [hgen hne, hfilter]
      simp
  · intro hhalf hne
    have hlen0 : l.length ≠ 0 := fun h0 => hne (List.eq_nil_of_length_eq_zero h0)
    have ht0 : (l.filter containsSourceTag).length ≠ 0 := by omega
    have htq : ((l.filter containsSourceTag).length : ℚ) ≠ 0 := Nat.cast_ne_zero.mpr ht0
    have hlen : (l.length : ℚ) = 2 * ((l.filter containsSourceTag).length : ℚ) := by
      exact_mod_cast hhalf.symm
    rw [hgen hne, hlen, div_eq_div_iff (mul_ne_zero two_ne_zero htq) two_ne_zero]
    ring

/-- Demo parsed per-file result with one tagged fact and one untagged
insight. -/
def demoParsedResult : ParsedFileResult :=
  ⟨some ["Fact 1 [source: a.txt:4]"], some ["Insight with no tag"]⟩

theorem calculateConfidence_spec_witness :
    allConfidenceItems demoParsedResult ≠ [] ∧
      2 * ((allConfidenceItems demoParsedResult).filter containsSourceTag).length =
        (allConfidenceItems demoParsedResult).length ∧
      calculateConfidence demoParsedResult = 1 / 2 :=
  ⟨by decide, by decide,
    (calculateConfidence_spec demoParsedResult).2.2.2.2 (by decide) (by decide)⟩

/-- Claim C10: a successful conclusion-generation response with empty or
absent evidence yields confidence `0.5`, never `0`; the all-empty record with
confidence `0` arises exactly from a failed provider call. -/
theorem generateConclusions_confidence (resp : ParsedConclusions) :
    ((resp.evidence = none ∨ resp.evidence = some []) →
      (generateConclusions (Except.ok resp)).confidence = 1 / 2) ∧
    generateConclusions (Except.ok resp) ≠ ⟨[], [], [], 0⟩ ∧
    (∀ e, generateConclusions (Except.error e) = ⟨[], [], [], 0⟩) := by
  refine ⟨?_, ?_, fun e => rfl⟩
  · rintro (h | h) <;> simp [generateConclusions, h]
  · cases hev : resp.evidence with
    | none =>
      intro hcontra
      have : (generateConclusions (Except.ok resp)).confidence = 1 / 2 := by
        simp [generateConclusions, hev]
      rw [hcontra] at this
      norm_num at this
    | some ev =>
      cases ev with
      | nil =>
        intro hcontra
        have : (generateConclusions (Except.ok resp)).confidence = 1 / 2 := by
          simp [generateConclusions, hev]
        rw [hcontra] at this
        norm_num at this
      | cons e es =>
        intro hcontra
        have : (generateConclusions (Except.ok resp)).evidence = e :: es := by
          simp [generateConclusions, hev]
        rw [hcontra] at this
        exact List.cons_ne_nil e es this.symm

/-- Demo parsed conclusions with nonempty conclusions but empty evidence. -/
def demoParsedConclusions : ParsedConclusions :=
  ⟨some ["conclusion"], some ["recommendation"], some []⟩

theorem generateConclusions_confidence_witness :
    (generateConclusions (Except.ok demoParsedConclusions)).confidence = 1 / 2 ∧
      generateConclusions (Except.error "provider down") = ⟨[], [], [], 0⟩ :=
  ⟨(generateConclusions_confidence demoParsedConclusions).1 (Or.inr rfl),
    (generateConclusions_confidence demoParsedConclusions).2.2 "provider down"⟩

/-- The stopword set shared verbatim by `fact-analyzer.ts` and
`semantic-clustering.ts`. -/
def commonStopwords : List String :=
  ["the", "a", "an", "and", "or", "but", "in", "on", "at", "to", "for", "of",
   "with", "is", "was", "are", "were", "been", "be", "have", "has", "had",
   "do", "does", "did", "will", "would", "could", "should", "may", "might",
   "must", "can", "this", "that", "these", "those"]

/-- `removeStopwords` from `fact-analyzer.ts`/`semantic-clustering.ts`. -/
def removeStopwords (words : List String) : List String :=
  words.filter (fun w => !commonStopwords.contains (jsToLowerCase w))

/-- Position of the first unescaped `]` reachable by the regex fragment
`.*?` (which cannot cross a line terminator) in the scanned text. -/
def findCloseIdx : List Char → Option ℕ
  | [] => none
  | c :: cs =>
    if c = ']' then some 0
    else if c = '\n' ∨ c = '\r' ∨ c = Char.ofNat 0x2028 ∨ c = Char.ofNat 0x2029 then none
    else (findCloseIdx cs).map (· + 1)

/-- JS `fact.replace(/\[source:.*?\]/g, '')`: leftmost-first removal of every
lazily-matched `[source: ...]` tag.  At each position, a match starts iff the
text begins with `"[source:"` and a `]` follows before any line terminator;
the scanner then resumes after the consumed match, otherwise it keeps the
character and moves on.  `fuel` bounds the recursion (each step consumes at
least one character, so the initial fuel `l.length` is never exhausted); it
exists only to make the scanner structurally recursive. -/
def stripSourceTags (fuel : ℕ) (l : List Char) : List Char :=
  match fuel, l with
  | _, [] => []
  | 0, l => l
  | f + 1, c :: cs =>
    if startsWithChars "[source:".data (c :: cs) then
      match findCloseIdx ((c :: cs).drop 8) with
      | some i => stripSourceTags f (((c :: cs).drop 8).drop (i + 1))
      | none => c :: stripSourceTags f cs
    else c :: stripSourceTags f cs

/-- The fact normalization of `analyzeFacts`:
`fact.replace(/\[source:.*?\]/g, '').trim()`. -/
def cleanFact (fact : String) : String :=
  jsTrim (String.mk (stripSourceTags fact.data.length fact.data))

/-- The per-fact record held in `analyzeFacts`' `factMap`: the JS `Set` of
sources is an insertion-ordered duplicate-free list. -/
structure FactEntry where
  sources : List String
  frequency : ℕ
deriving DecidableEq, Repr

/-- One `factMap` update of `analyzeFacts` (lines 69–78): a fresh entry
`{sources: new Set([path]), frequency: 1}` for an unseen normalized text, else
`sources.add(path)` and `frequency++` on the existing entry. -/
def stepEntry (path : String) : Option FactEntry → FactEntry
  | none => ⟨[path], 1⟩
  | some e =>
    ⟨if e.sources.contains path then e.sources else e.sources ++ [path], e.frequency + 1⟩

/-- Processing of one key fact by the `factMap` loop.  In the source the
found entry object is mutated in place; the pure model rewrites the value
stored at the matching key. -/
def addFact (path cleaned : String) (m : List (String × FactEntry)) :
    List (String × FactEntry) :=
  match lookupKey cleaned m with
  | none => m ++ [(cleaned, stepEntry path none)]
  | some _ =>
    m.map (fun kv => (kv.1, if kv.1 = cleaned then stepEntry path (some kv.2) else kv.2))

/-- The fully built `factMap` of `analyzeFacts` (lines 62–80): summaries in
order, each summary's `keyFacts` in order. -/
def buildFactMap (summaries : List FileSummary) : List (String × FactEntry) :=
  summaries.foldl
    (fun m s => s.keyFacts.foldl (fun acc fact => addFact s.file.path (cleanFact fact) acc) m)
    []

/-- The string added to the TF-IDF corpus for one distinct fact (line 86–90):
lowercased, whitespace-split, stopword-filtered, re-joined with spaces. -/
def tfidfDocText (fact : String) : String :=
  String.intercalate " " (removeStopwords (jsSplitWs (jsToLowerCase fact)))

/-- The TF-IDF corpus built by `analyzeFacts`: one document per distinct
normalized fact, in first-mention order. -/
def tfidfCorpusOf (summaries : List FileSummary) : List String :=
  ((buildFactMap summaries).map Prod.fst).map tfidfDocText

/-- `avgTfIdf` of `analyzeFacts` (line 106): the average of the per-term
TF-IDF scores of one fact's document, `0` when there are none. -/
def avgOf (scores : List ℚ) : ℚ :=
  if 0 < scores.length then scores.sum / (scores.length : ℚ) else 0

/-- Fact category from `types.ts`. -/
inductive FactCategory
  | common
  | unusual
  | long
deriving DecidableEq, Repr

/-- `AnalyzedFact` from `types.ts`. -/
structure AnalyzedFact where
  text : String
  sources : List String
  frequency : ℕ
  rarityScore : ℚ
  wordCount : ℕ
  category : FactCategory
deriving DecidableEq, Repr

/-- The `analyzedFacts` array of `analyzeFacts` (lines 94–117).
`tfidfScores corpus i` is the oracle for the external `natural` library call
`tfidf.listTerms(i)` mapped to its `tfidf` score components, over the corpus
fed to `tfidf.addDocument`; the theorems quantify over this oracle. -/
def buildAnalyzedFacts (tfidfScores : List String → ℕ → List ℚ)
    (summaries : List FileSummary) : List AnalyzedFact :=
  let factMap := buildFactMap summaries
  let facts := factMap.map Prod.fst
  let corpus := facts.map tfidfDocText
  facts.enum.map (fun p =>
    let fact := p.2
    let entry := (lookupKey fact factMap).getD ⟨[], 0⟩
    let wordCount := (jsSplitWs fact).length
    let avgTfIdf := avgOf (tfidfScores corpus p.1)
    let rarityScore : ℚ := if 0 < avgTfIdf then 1 / (1 + avgTfIdf) else 1 / 2
    ⟨fact, entry.sources, entry.frequency, rarityScore, wordCount, FactCategory.common⟩)

/-- Stable insertion step for descending sort: `x` goes before the first
element whose key does not exceed `x`'s, so among equal keys earlier input
elements stay first. -/
def insertDescBy {α : Type} (key : α → ℚ) (x : α) : List α → List α
  | [] => [x]
  | y :: ys => if key y ≤ key x then x :: y :: ys else y :: insertDescBy key x ys

/-- Model of the stable JS `Array.prototype.sort` with a numeric comparator
`(a, b) => key(b) - key(a)` (descending by key). -/
def sortDescBy {α : Type} (key : α → ℚ) : List α → List α
  | [] => []
  | x :: xs => insertDescBy key x (sortDescBy key xs)

/-- The three category lists returned by `analyzeFacts`. -/
structure FactAnalysis where
  common : List AnalyzedFact
  unusual : List AnalyzedFact
  long : List AnalyzedFact
deriving DecidableEq, Repr

/-- `analyzeFacts` from `fact-analyzer.ts` (categorization lines 120–135):
`common` = frequency ≥ 3, sorted descending by frequency, top 10;
`unusual` = frequency == 1 and rarity ≥ 0.7, sorted descending by rarity,
top 10; `long` = more than 50 words, sorted descending by word count.
The JS literal `0.7` is modelled as the exact rational `7/10`. -/
def analyzeFacts (tfidfScores : List String → ℕ → List ℚ)
    (summaries : List FileSummary) : FactAnalysis :=
  let analyzedFacts := buildAnalyzedFacts tfidfScores summaries
  let common :=
    ((sortDescBy (fun f => (f.frequency : ℚ))
        (analyzedFacts.filter (fun f => decide (3 ≤ f.frequency)))).take 10).map
      (fun f => { f with category := FactCategory.common })
  let unusual :=
    ((sortDescBy (fun f => f.rarityScore)
        (analyzedFacts.filter
          (fun f => decide (f.frequency = 1) && decide ((7 : ℚ) / 10 ≤ f.rarityScore)))).take
        10).map
      (fun f => { f with category := FactCategory.unusual })
  let long :=
    (sortDescBy (fun f => (f.wordCount : ℚ))
        (analyzedFacts.filter (fun f => decide (50 < f.wordCount)))).map
      (fun f => { f with category := FactCategory.long })
  ⟨common, unusual, long⟩

/-- All (source path, normalized fact text) mention pairs collected by the
`factMap` loop, in processing order. -/
def mentionsOf (summaries : List FileSummary) : List (String × String) :=
  (summaries.map (fun s => s.keyFacts.map (fun fact => (s.file.path, cleanFact fact)))).flatten

/-- Modelled from the spec: the number of mentions of a normalized text
across all summaries (the spec instead asks for the number of distinct
mentioning documents, compared in the C1 theorems). -/
def specMentionCount (summaries : List FileSummary) (text : String) : ℕ :=
  ((mentionsOf summaries).filter (fun x => decide (x.2 = text))).length

/-- Modelled from the spec: `p` is a contributing source path for the
normalized text, i.e. some summary with path `p` mentions it. -/
def specIsMentionSource (summaries : List FileSummary) (text p : String) : Prop :=
  ∃ x ∈ mentionsOf summaries, x.2 = text ∧ x.1 = p

theorem lookupKey_map_values {β : Type} (g : String → β → β) (m : List (String × β))
    (k : String) :
    lookupKey k (m.map (fun kv => (kv.1, g kv.1 kv.2))) = (lookupKey k m).map (g k) := by
  induction m with
  | nil => rfl
  | cons kv rest ih =>
    simp only [List.map_cons, lookupKey]
    by_cases h : kv.1 = k
    · rw [if_pos h, if_pos h, h]
      rfl
    · rw [if_neg h, if_neg h, ih]

theorem lookupKey_append_of_some {β : Type} (m m2 : List (String × β)) (k : String)
    (v : β) (h : lookupKey k m = some v) : lookupKey k (m ++ m2) = some v := by
  induction m with
  | nil => exact absurd h (by simp [lookupKey])
  | cons kv rest ih =>
    simp only [lookupKey, List.cons_append] at h ⊢
    by_cases hk : kv.1 = k
    · rwa [if_pos hk] at h ⊢
    · rw [if_neg hk] at h ⊢
      exact ih h

theorem lookupKey_append_of_none {β : Type} (m m2 : List (String × β)) (k : String)
    (h : lookupKey k m = none) : lookupKey k (m ++ m2) = lookupKey k m2 := by
  induction m with
  | nil => rfl
  | cons kv rest ih =>
    simp only [lookupKey, List.cons_append] at h ⊢
    by_cases hk : kv.1 = k
    · rw [if_pos hk] at h
      exact absurd h (by simp)
    · rw [if_neg hk] at h ⊢
      exact ih h

theorem lookupKey_eq_none_iff {β : Type} (m : List (String × β)) (k : String) :
    lookupKey k m = none ↔ k ∉ m.map Prod.fst := by
  induction m with
  | nil => simp [lookupKey]
  | cons kv rest ih =>
    simp only [lookupKey, List.map_cons, List.mem_cons]
    by_cases hk : kv.1 = k
    · simp [hk]
    · simp only [if_neg hk, ih]
      constructor
      · intro h hc
        rcases hc with hc | hc
        · exact hk hc.symm
        · exact h hc
      · intro h hc
        exact h (Or.inr hc)

theorem lookupKey_isSome_of_mem_keys {β : Type} (m : List (String × β)) (k : String)
    (h : k ∈ m.map Prod.fst) : ∃ v, lookupKey k m = some v := by
  cases hv : lookupKey k m with
  | none => exact absurd h ((lookupKey_eq_none_iff m k).mp hv)
  | some v => exact ⟨v, rfl⟩

theorem lookupKey_addFact (path cleaned k : String) (m : List (String × FactEntry)) :
    lookupKey k (addFact path cleaned m) =
      if k = cleaned then some (stepEntry path (lookupKey cleaned m)) else lookupKey k m := by
  unfold addFact
  cases hc : lookupKey cleaned m with
  | none =>
    by_cases hk : k = cleaned
    · subst hk
      rw [if_pos rfl, lookupKey_append_of_none _ _ _ hc]
      simp [lookupKey]
    · rw [if_neg hk]
      cases hkm : lookupKey k m with
      | some v => exact lookupKey_append_of_some _ _ _ _ hkm
      | none =>
        rw [lookupKey_append_of_none _ _ _ hkm]
        simp only [lookupKey]
        rw [if_neg (fun hc2 => hk hc2.symm)]
    | some e =>
      rw [lookupKey_map_values (fun k2 v => if k2 = cleaned then stepEntry path (some v) else v)]
      by_cases hk : k = cleaned
      · subst hk
        rw [if_pos rfl, hc]
        simp
      · rw [if_neg hk]
        cases lookupKey k m with
        | none => rfl
        | some v => simp [if_neg hk]

/-- The whole `factMap` loop as one fold over the flattened mention list. -/
def foldMentions (ms : List (String × String)) (m : List (String × FactEntry)) :
    List (String × FactEntry) :=
  ms.foldl (fun acc x => addFact x.1 x.2 acc) m

theorem buildFactMap_aux (summaries : List FileSummary) :
    ∀ m, summaries.foldl
        (fun m s => s.keyFacts.foldl (fun acc fact => addFact s.file.path (cleanFact fact) acc) m)
        m =
      foldMentions (mentionsOf summaries) m := by
  induction summaries with
  | nil => intro m; rfl
  | cons s ss ih =>
    intro m
    simp only [List.foldl_cons, mentionsOf, List.map_cons, List.flatten_cons]
    rw [ih]
    unfold foldMentions
    rw [List.foldl_append, List.foldl_map]
    rfl

theorem buildFactMap_eq (summaries : List FileSummary) :
    buildFactMap summaries = foldMentions (mentionsOf summaries) [] :=
  buildFactMap_aux summaries []

theorem lookupKey_foldMentions (k : String) :
    ∀ (ms : List (String × String)) (m : List (String × FactEntry)),
      lookupKey k (foldMentions ms m) =
        ms.foldl (fun acc x => if x.2 = k then some (stepEntry x.1 acc) else acc)
          (lookupKey k m) := by
  intro ms
  induction ms with
  | nil => intro m; rfl
  | cons x ms ih =>
    intro m
    show lookupKey k (foldMentions ms (addFact x.1 x.2 m)) = _
    rw [ih, lookupKey_addFact]
    simp only [List.foldl_cons]
    by_cases hx : x.2 = k
    · rw [if_pos hx, if_pos (hx.symm), hx]
    · rw [if_neg hx, if_neg (fun hc => hx hc.symm)]

/-- The per-key evolution of a `factMap` entry: one `stepEntry` per matching
mention path, in order. -/
def foldEntry (paths : List String) (acc : Option FactEntry) : Option FactEntry :=
  paths.foldl (fun a p => some (stepEntry p a)) acc

/-- Frequency stored in an optional entry (`0` for an absent key). -/
def optFreq : Option FactEntry → ℕ
  | none => 0
  | some e => e.frequency

/-- Source membership in an optional entry. -/
def optHasSource (p : String) : Option FactEntry → Prop
  | none => False
  | some e => p ∈ e.sources

theorem stepEntry_frequency (p : String) (acc : Option FactEntry) :
    (stepEntry p acc).frequency = optFreq acc + 1 := by
  cases acc <;> rfl

theorem stepEntry_sources (p q : String) (acc : Option FactEntry) :
    q ∈ (stepEntry p acc).sources ↔ optHasSource q acc ∨ q = p := by
  cases acc with
  | none => simp [stepEntry, optHasSource]
  | some e =>
    simp only [stepEntry, optHasSource]
    by_cases hc : e.sources.contains p
    · rw [if_pos hc]
      have hp : p ∈ e.sources := by
        simpa using hc
      constructor
      · exact Or.inl
      · rintro (h | rfl)
        · exact h
        · exact hp
    · rw [if_neg hc]
      simp [List.mem_append]

theorem foldEntry_freq (paths : List String) :
    ∀ acc, optFreq (foldEntry paths acc) = optFreq acc + paths.length := by
  induction paths with
  | nil => intro acc; simp [foldEntry]
  | cons p ps ih =>
    intro acc
    show optFreq (foldEntry ps (some (stepEntry p acc))) = _
    rw [ih]
    show (stepEntry p acc).frequency + ps.length = _
    rw [stepEntry_frequency]
    simp only [List.length_cons]
    omega

theorem foldEntry_sources (q : String) (paths : List String) :
    ∀ acc, optHasSource q (foldEntry paths acc) ↔ optHasSource q acc ∨ q ∈ paths := by
  induction paths with
  | nil => intro acc; simp [foldEntry]
  | cons p ps ih =>
    intro acc
    show optHasSource q (foldEntry ps (some (stepEntry p acc))) ↔ _
    rw [ih]
    show q ∈ (stepEntry p acc).sources ∨ q ∈ ps ↔ _
    rw [stepEntry_sources]
    simp only [List.mem_cons]
    tauto

theorem foldEntry_ne_none_of_some (paths : List String) :
    ∀ e, foldEntry paths (some e) ≠ none := by
  induction paths with
  | nil => intro e h; exact Option.noConfusion h
  | cons p ps ih =>
    intro e h
    exact ih (stepEntry p (some e)) h

theorem foldEntry_eq_none_iff (paths : List String) (acc : Option FactEntry) :
    foldEntry paths acc = none ↔ acc = none ∧ paths = [] := by
  cases paths with
  | nil =>
    simp [foldEntry]
  | cons p ps =>
    constructor
    · intro h
      exact absurd h (foldEntry_ne_none_of_some ps (stepEntry p acc))
    · rintro ⟨-, h⟩
      exact List.noConfusion h

/-- The per-key fold over all mentions ignores non-matching mentions. -/
def matchPaths (ms : List (String × String)) (k : String) : List String :=
  (ms.filter (fun x => decide (x.2 = k))).map Prod.fst

theorem foldStep_eq_foldEntry (k : String) (ms : List (String × String)) :
    ∀ acc, ms.foldl (fun acc x => if x.2 = k then some (stepEntry x.1 acc) else acc) acc =
      foldEntry (matchPaths ms k) acc := by
  induction ms with
  | nil => intro acc; rfl
  | cons x ms ih =>
    intro acc
    simp only [List.foldl_cons, matchPaths, List.filter_cons]
    by_cases hx : x.2 = k
    · rw [if_pos hx]
      simp only [hx, decide_True, List.map_cons]
      rw [ih]
      rfl
    · rw [if_neg hx]
      simp only [hx, decide_False]
      exact ih acc

theorem buildFactMap_lookup (summaries : List FileSummary) (k : String) :
    lookupKey k (buildFactMap summaries) =
      foldEntry (matchPaths (mentionsOf summaries) k) none := by
  rw [buildFactMap_eq, lookupKey_foldMentions, foldStep_eq_foldEntry]
  rfl

theorem buildFactMap_entry_spec (summaries : List FileSummary) (k : String) (e : FactEntry)
    (h : lookupKey k (buildFactMap summaries) = some e) :
    e.frequency = specMentionCount summaries k ∧
    (∀ p, p ∈ e.sources ↔ specIsMentionSource summaries k p) := by
  have hfold := buildFactMap_lookup summaries k
  rw [h] at hfold
  constructor
  · have hfreq := foldEntry_freq (matchPaths (mentionsOf summaries) k) none
    rw [← hfold] at hfreq
    show optFreq (some e) = _
    rw [hfreq]
    simp only [optFreq, matchPaths, List.length_map, specMentionCount]
    omega
  · intro p
    have hsrc := foldEntry_sources p (matchPaths (mentionsOf summaries) k) none
    rw [← hfold] at hsrc
    show optHasSource p (some e) ↔ _
    rw [hsrc]
    simp only [optHasSource, false_or, matchPaths, List.mem_map, List.mem_filter,
      decide_eq_true_eq, specIsMentionSource]
    constructor
    · rintro ⟨x, ⟨hx, hk⟩, hp⟩
      exact ⟨x, hx, hk, hp⟩
    · rintro ⟨x, hx, hk, hp⟩
      exact ⟨x, ⟨hx, hk⟩, hp⟩

theorem keys_map_values {β : Type} (g : String → β → β) (m : List (String × β)) :
    (m.map (fun kv => (kv.1, g kv.1 kv.2))).map Prod.fst = m.map Prod.fst := by
  induction m with
  | nil => rfl
  | cons kv rest ih => simp only [List.map_cons, ih]

theorem keys_addFact_nodup (path cleaned : String) (m : List (String × FactEntry))
    (h : (m.map Prod.fst).Nodup) : ((addFact path cleaned m).map Prod.fst).Nodup := by
  unfold addFact
  cases hl : lookupKey cleaned m with
  | some e =>
    show ((m.map (fun kv =>
        (kv.1, if kv.1 = cleaned then stepEntry path (some kv.2) else kv.2))).map
        Prod.fst).Nodup
    rw [keys_map_values (fun k v => if k = cleaned then stepEntry path (some v) else v)]
    exact h
  | none =>
    show (((m ++ [(cleaned, stepEntry path none)]).map Prod.fst)).Nodup
    rw [List.map_append]
    rw [List.nodup_append]
    refine ⟨h, List.nodup_singleton _, ?_⟩
    intro a ha hb
    simp only [List.map_cons, List.map_nil, List.mem_singleton] at hb
    exact (lookupKey_eq_none_iff m cleaned).mp hl (hb ▸ ha)

theorem foldMentions_keys_nodup (ms : List (String × String)) :
    ∀ m, ((m : List (String × FactEntry)).map Prod.fst).Nodup →
      ((foldMentions ms m).map Prod.fst).Nodup := by
  induction ms with
  | nil => intro m h; exact h
  | cons x ms ih =>
    intro m h
    exact ih (addFact x.1 x.2 m) (keys_addFact_nodup x.1 x.2 m h)

theorem buildFactMap_keys_nodup (summaries : List FileSummary) :
    ((buildFactMap summaries).map Prod.fst).Nodup := by
  rw [buildFactMap_eq]
  exact foldMentions_keys_nodup _ [] (by simp)

theorem buildAnalyzedFacts_texts (tf : List String → ℕ → List ℚ)
    (summaries : List FileSummary) :
    (buildAnalyzedFacts tf summaries).map AnalyzedFact.text =
      (buildFactMap summaries).map Prod.fst := by
  unfold buildAnalyzedFacts
  rw [List.map_map]
  exact List.enum_map_snd _

theorem analyzedFacts_texts_nodup (tf : List String → ℕ → List ℚ)
    (summaries : List FileSummary) :
    ((buildAnalyzedFacts tf summaries).map AnalyzedFact.text).Nodup := by
  rw [buildAnalyzedFacts_texts]
  exact buildFactMap_keys_nodup summaries

theorem mem_buildAnalyzedFacts_spec (tf : List String → ℕ → List ℚ)
    (summaries : List FileSummary) (f : AnalyzedFact)
    (hf : f ∈ buildAnalyzedFacts tf summaries) :
    f.frequency = specMentionCount summaries f.text ∧
    (∀ p, p ∈ f.sources ↔ specIsMentionSource summaries f.text p) := by
  unfold buildAnalyzedFacts at hf
  simp only [List.mem_map] at hf
  obtain ⟨p, hp, rfl⟩ := hf
  have hmem : p.2 ∈ (buildFactMap summaries).map Prod.fst := by
    have h2 := List.mem_map_of_mem Prod.snd hp
    rwa [List.enum_map_snd] at h2
  obtain ⟨e, he⟩ := lookupKey_isSome_of_mem_keys _ _ hmem
  have hspec := buildFactMap_entry_spec summaries p.2 e he
  constructor
  · show ((lookupKey p.2 (buildFactMap summaries)).getD ⟨[], 0⟩).frequency = _
    rw [he]
    exact hspec.1
  · intro q
    show q ∈ ((lookupKey p.2 (buildFactMap summaries)).getD ⟨[], 0⟩).sources ↔ _
    rw [he]
    exact hspec.2 q

theorem mem_insertDescBy {α : Type} (key : α → ℚ) (x : α) (l : List α) (a : α) :
    a ∈ insertDescBy key x l ↔ a = x ∨ a ∈ l := by
  induction l with
  | nil => simp [insertDescBy]
  | cons y ys ih =>
    simp only [insertDescBy]
    by_cases h : key y ≤ key x
    · rw [if_pos h]
      simp [List.mem_cons]
    · rw [if_neg h]
      simp only [List.mem_cons, ih]
      tauto

theorem mem_sortDescBy {α : Type} (key : α → ℚ) (l : List α) (a : α) :
    a ∈ sortDescBy key l ↔ a ∈ l := by
  induction l with
  | nil => simp [sortDescBy]
  | cons y ys ih =>
    simp only [sortDescBy, mem_insertDescBy, List.mem_cons, ih]

theorem mem_common_spec (tf : List String → ℕ → List ℚ) (summaries : List FileSummary)
    (f : AnalyzedFact) (hf : f ∈ (analyzeFacts tf summaries).common) :
    ∃ g ∈ buildAnalyzedFacts tf summaries,
      3 ≤ g.frequency ∧ f = { g with category := FactCategory.common } := by
  unfold analyzeFacts at hf
  simp only [List.mem_map] at hf
  obtain ⟨g, hg, rfl⟩ := hf
  have hg2 := List.mem_of_mem_take hg
  rw [mem_sortDescBy] at hg2
  have hmem := List.mem_filter.mp hg2
  exact ⟨g, hmem.1, by simpa using hmem.2, rfl⟩

theorem mem_unusual_spec (tf : List String → ℕ → List ℚ) (summaries : List FileSummary)
    (f : AnalyzedFact) (hf : f ∈ (analyzeFacts tf summaries).unusual) :
    ∃ g ∈ buildAnalyzedFacts tf summaries,
      g.frequency = 1 ∧ (7 : ℚ) / 10 ≤ g.rarityScore ∧
        f = { g with category := FactCategory.unusual } := by
  unfold analyzeFacts at hf
  simp only [List.mem_map] at hf
  obtain ⟨g, hg, rfl⟩ := hf
  have hg2 := List.mem_of_mem_take hg
  rw [mem_sortDescBy] at hg2
  have hmem := List.mem_filter.mp hg2
  have hcond := hmem.2
  rw [Bool.and_eq_true, decide_eq_true_eq, decide_eq_true_eq] at hcond
  exact ⟨g, hmem.1, hcond.1, hcond.2, rfl⟩

theorem mem_long_spec (tf : List String → ℕ → List ℚ) (summaries : List FileSummary)
    (f : AnalyzedFact) (hf : f ∈ (analyzeFacts tf summaries).long) :
    ∃ g ∈ buildAnalyzedFacts tf summaries,
      50 < g.wordCount ∧ f = { g with category := FactCategory.long } := by
  unfold analyzeFacts at hf
  simp only [List.mem_map] at hf
  obtain ⟨g, hg, rfl⟩ := hf
  rw [mem_sortDescBy] at hg
  have hmem := List.mem_filter.mp hg
  exact ⟨g, hmem.1, by simpa using hmem.2, rfl⟩

/-- Claim C1 (amended): `analyzeFacts` groups key facts by citation-stripped
normalized text — no two analyzed facts share a normalized text — and every
fact in the returned category lists records as `sources` exactly the union of
the contributing source file paths; its `frequency`, however, is the TOTAL
number of mentions of that normalized text across all summaries' key facts,
not the number of distinct mentioning documents. -/
theorem analyzeFacts_grouping (tf : List String → ℕ → List ℚ)
    (summaries : List FileSummary) (f : AnalyzedFact)
    (hf : f ∈ (analyzeFacts tf summaries).common ∨
      f ∈ (analyzeFacts tf summaries).unusual ∨ f ∈ (analyzeFacts tf summaries).long) :
    ((buildAnalyzedFacts tf summaries).map AnalyzedFact.text).Nodup ∧
    f.frequency = specMentionCount summaries f.text ∧
    (∀ p, p ∈ f.sources ↔ specIsMentionSource summaries f.text p) := by
  have hkey : ∃ g ∈ buildAnalyzedFacts tf summaries,
      f.text = g.text ∧ f.frequency = g.frequency ∧ f.sources = g.sources := by
    rcases hf with hf | hf | hf
    · obtain ⟨g, hg, -, rfl⟩ := mem_common_spec tf summaries f hf
      exact ⟨g, hg, rfl, rfl, rfl⟩
    · obtain ⟨g, hg, -, -, rfl⟩ := mem_unusual_spec tf summaries f hf
      exact ⟨g, hg, rfl, rfl, rfl⟩
    · obtain ⟨g, hg, -, rfl⟩ := mem_long_spec tf summaries f hf
      exact ⟨g, hg, rfl, rfl, rfl⟩
  obtain ⟨g, hg, ht, hfr, hs⟩ := hkey
  have hspec := mem_buildAnalyzedFacts_spec tf summaries g hg
  refine ⟨analyzedFacts_texts_nodup tf summaries, ?_, ?_⟩
  · rw [hfr, ht]
    exact hspec.1
  · intro p
    rw [hs, ht]
    exact hspec.2 p

/-- The TF-IDF oracle describing a `natural` TfIdf run that returns no scored
terms (used with facts whose filtered documents are empty). -/
def oracleZero : List String → ℕ → List ℚ := fun _ _ => []

/-- Builds a `FileSummary` carrying only the fields the fact analyzer
consumes. -/
def mkSummary (path : String) (keyFacts : List String) : FileSummary :=
  ⟨⟨path⟩, "", keyFacts, [], [], "", 0, 0⟩

/-- One document whose summary mentions the same normalized fact three
times. -/
def cexSummaryC1 : FileSummary :=
  mkSummary "x.txt"
    ["Acme ships X [source: x.txt:1]", "Acme ships X [source: x.txt:2]",
     "Acme ships X [source: x.txt:3]"]

/-- The analyzed fact produced from `cexSummaryC1`. -/
def cexFactC1 : AnalyzedFact :=
  ⟨"Acme ships X", ["x.txt"], 3, 1 / 2, 3, FactCategory.common⟩

/-- Claim C1 counterexample: with a single document mentioning the same
normalized fact three times, `analyzeFacts` reports frequency `3`, but the
number of distinct source documents mentioning that text is `1` — the claim's
"frequency equals the number of distinct source documents" fails. -/
theorem analyzeFacts_frequency_counterexample :
    ((analyzeFacts oracleZero [cexSummaryC1]).common.map
      (fun f => (f.text, f.frequency, f.sources))) = [("Acme ships X", 3, ["x.txt"])] ∧
    [cexSummaryC1].length = 1 ∧ (3 : ℕ) ≠ 1 := by
  refine ⟨rfl, rfl, by decide⟩

theorem analyzeFacts_grouping_witness :
    cexFactC1 ∈ (analyzeFacts oracleZero [cexSummaryC1]).common ∧
    cexFactC1.frequency = specMentionCount [cexSummaryC1] cexFactC1.text :=
  have hmem : cexFactC1 ∈ (analyzeFacts oracleZero [cexSummaryC1]).common :=
    (show (analyzeFacts oracleZero [cexSummaryC1]).common = [cexFactC1] from rfl) ▸
      List.mem_singleton_self cexFactC1
  ⟨hmem, (analyzeFacts_grouping oracleZero [cexSummaryC1] cexFactC1 (Or.inl hmem)).2.1⟩

/-- Claim C2 (amended): no fact text can appear in both the `common` and the
`unusual` list — their filters demand frequency ≥ 3 and frequency = 1 of the
same uniquely-grouped fact — but mutual exclusion does not extend to `long`
(see the counterexample). -/
theorem analyzeFacts_common_unusual_disjoint (tf : List String → ℕ → List ℚ)
    (summaries : List FileSummary) :
    List.Disjoint ((analyzeFacts tf summaries).common.map AnalyzedFact.text)
      ((analyzeFacts tf summaries).unusual.map AnalyzedFact.text) := by
  intro t htc htu
  simp only [List.mem_map] at htc htu
  obtain ⟨f, hf, rfl⟩ := htc
  obtain ⟨g, hg, htg⟩ := htu
  obtain ⟨f0, hf0, hffreq, rfl⟩ := mem_common_spec tf summaries f hf
  obtain ⟨g0, hg0, hgfreq, -, rfl⟩ := mem_unusual_spec tf summaries g hg
  have htext : f0.text = g0.text := by
    simpa using htg.symm
  have heq : f0 = g0 :=
    List.inj_on_of_nodup_map (analyzedFacts_texts_nodup tf summaries) hf0 hg0 htext
  rw [heq, hgfreq] at hffreq
  omega

/-- A fact text of exactly 51 words. -/
def longFactText : String := String.intercalate " " (List.replicate 51 "w")

/-- Three documents each mentioning the same 51-word fact. -/
def cexSummariesC2 : List FileSummary :=
  [mkSummary "a.txt" [longFactText], mkSummary "b.txt" [longFactText],
   mkSummary "c.txt" [longFactText]]

set_option maxRecDepth 4000 in
/-- Claim C2 counterexample: a fact mentioned by three distinct documents with
more than 50 words appears in BOTH the `common` and the `long` list, refuting
"each analyzed fact appears in at most one of the three category lists". -/
theorem analyzeFacts_double_count_counterexample :
    (analyzeFacts oracleZero cexSummariesC2).common.map AnalyzedFact.text = [longFactText] ∧
    (analyzeFacts oracleZero cexSummariesC2).long.map AnalyzedFact.text = [longFactText] :=
  ⟨rfl, rfl⟩

/-- Claim C7 (amended): a fact's rarity score is `1 / (1 + avgScore)` whenever
the average TF-IDF term score is positive; but when the average is zero (in
particular when the fact has no scored terms) the code yields `0.5`, not
`1 / (1 + 0) = 1`. -/
theorem rarityScore_formula (tf : List String → ℕ → List ℚ) (summaries : List FileSummary)
    (i : ℕ) (d : AnalyzedFact) (hi : i < (buildAnalyzedFacts tf summaries).length) :
    (0 < avgOf (tf (tfidfCorpusOf summaries) i) →
      ((buildAnalyzedFacts tf summaries).getD i d).rarityScore =
        1 / (1 + avgOf (tf (tfidfCorpusOf summaries) i))) ∧
    (avgOf (tf (tfidfCorpusOf summaries) i) ≤ 0 →
      ((buildAnalyzedFacts tf summaries).getD i d).rarityScore = 1 / 2) := by
  rw [List.getD_eq_getElem _ d hi]
  unfold buildAnalyzedFacts
  rw [List.getElem_map, List.getElem_enum]
  constructor
  · intro h
    exact if_pos h
  · intro h
    exact if_neg (not_lt.mpr h)

/-- A one-fact document whose TF-IDF run returns no scored terms. -/
def cexSummaryC7 : FileSummary := mkSummary "x.txt" ["Quantum flux"]

/-- Claim C7 counterexample: with no scored terms the average TF-IDF score is
`0` and the code returns rarity `0.5`, where the claim's formula demands
`1 / (1 + 0) = 1`. -/
theorem rarityScore_zero_counterexample :
    (buildAnalyzedFacts oracleZero [cexSummaryC7]).map AnalyzedFact.rarityScore = [1 / 2] ∧
    ¬((1 : ℚ) / 2 = 1) :=
  ⟨rfl, by norm_num⟩

/-- Placeholder fact used as the `getD` default in the C7 witness. -/
def defaultFact : AnalyzedFact := ⟨"", [], 0, 0, 0, FactCategory.common⟩

theorem rarityScore_formula_witness :
    0 < (buildAnalyzedFacts oracleZero [cexSummaryC7]).length ∧
    avgOf (oracleZero (tfidfCorpusOf [cexSummaryC7]) 0) ≤ 0 ∧
    ((buildAnalyzedFacts oracleZero [cexSummaryC7]).getD 0 defaultFact).rarityScore = 1 / 2 :=
  ⟨by decide, by decide,
    (rarityScore_formula oracleZero [cexSummaryC7] 0 defaultFact (by decide)).2 (by decide)⟩

/-- Graph node type from `types.ts`. -/
inductive NodeType
  | entity
  | fact
  | concept
deriving DecidableEq, Repr

/-- `GraphNode` from `types.ts`; the `properties` bag is created empty and
never written by the builder, so it is omitted. -/
structure GraphNode where
  id : String
  type : NodeType
  label : String
  sources : List String
deriving DecidableEq, Repr

/-- The node merge key of `addOrUpdateNode`: `label.trim().toLowerCase()`. -/
def normalizeLabel (label : String) : String := jsToLowerCase (jsTrim label)

/-- The in-place source update of an existing node (graph builder lines
335–337). -/
def nodeAddSource (source : String) (n : GraphNode) : GraphNode :=
  if n.sources.contains source then n else { n with sources := n.sources ++ [source] }

/-- `addOrUpdateNode` from the knowledge-graph module.  In the source the
`entityMap` and the `nodes` array alias the same node objects and are extended
in lockstep, so the nodes array is exactly the map's values in insertion
order; the pure model therefore carries the insertion-ordered map and reads
the node list off its values.  A found node is updated in place (here: the
value at its key is rewritten); an unseen normalized label appends a fresh
node with id `node_<current count>`. -/
def addOrUpdateNode (label : String) (ty : NodeType) (source : String)
    (entityMap : List (String × GraphNode)) : List (String × GraphNode) :=
  match lookupKey (normalizeLabel label) entityMap with
  | some _ =>
    entityMap.map (fun kv =>
      (kv.1, if kv.1 = normalizeLabel label then nodeAddSource source kv.2 else kv.2))
  | none =>
    entityMap ++ [(normalizeLabel label,
      { id := "node_" ++ toString entityMap.length, type := ty, label := label,
        sources := [source] })]

/-- The entity map accumulated by `buildKnowledgeGraph` over all extraction
results.  A mention is one string handed to `addOrUpdateNode` by the external
`compromise` tagger: (raw label, node type, source file path); the theorems
quantify over the whole mention sequence. -/
def buildEntityMap (mentions : List (String × NodeType × String)) :
    List (String × GraphNode) :=
  mentions.foldl (fun m x => addOrUpdateNode x.1 x.2.1 x.2.2 m) []

/-- The `nodes` array produced by `buildKnowledgeGraph` (values of the entity
map in insertion order, see `addOrUpdateNode`). -/
def graphNodesOf (mentions : List (String × NodeType × String)) : List GraphNode :=
  (buildEntityMap mentions).map Prod.snd

theorem lookupKey_addOrUpdateNode (label : String) (ty : NodeType) (source k : String)
    (m : List (String × GraphNode)) :
    lookupKey k (addOrUpdateNode label ty source m) =
      if k = normalizeLabel label then
        match lookupKey (normalizeLabel label) m with
        | some n => some (nodeAddSource source n)
        | none => some ⟨"node_" ++ toString m.length, ty, label, [source]⟩
      else lookupKey k m := by
  unfold addOrUpdateNode
  cases hc : lookupKey (normalizeLabel label) m with
  | none =>
    by_cases hk : k = normalizeLabel label
    · subst hk
      rw [if_pos rfl, lookupKey_append_of_none _ _ _ hc]
      simp [lookupKey]
    · rw [if_neg hk]
      cases hkm : lookupKey k m with
      | some v => exact lookupKey_append_of_some _ _ _ _ hkm
      | none =>
        rw [lookupKey_append_of_none _ _ _ hkm]
        simp only [lookupKey]
        rw [if_neg (fun hc2 => hk hc2.symm)]
  | some n =>
    rw [lookupKey_map_values (fun k2 v => if k2 = normalizeLabel label then nodeAddSource source v else v)]
    by_cases hk : k = normalizeLabel label
    · subst hk
      rw [if_pos rfl, hc]
      simp
    · rw [if_neg hk]
      cases lookupKey k m with
      | none => rfl
      | some v => simp [if_neg hk]

/-- Source membership in an optional node. -/
def optNodeHasSource (q : String) : Option GraphNode → Prop
  | none => False
  | some n => q ∈ n.sources

theorem nodeAddSource_mem (source q : String) (n : GraphNode) :
    q ∈ (nodeAddSource source n).sources ↔ q ∈ n.sources ∨ q = source := by
  unfold nodeAddSource
  by_cases hc : n.sources.contains source
  · rw [if_pos hc]
    have hs : source ∈ n.sources := by simpa using hc
    constructor
    · exact Or.inl
    · rintro (h | rfl)
      · exact h
      · exact hs
  · rw [if_neg hc]
    simp [List.mem_append]

theorem hasSource_addOrUpdateNode (label : String) (ty : NodeType) (source k q : String)
    (m : List (String × GraphNode)) :
    optNodeHasSource q (lookupKey k (addOrUpdateNode label ty source m)) ↔
      optNodeHasSource q (lookupKey k m) ∨ (normalizeLabel label = k ∧ q = source) := by
  rw [lookupKey_addOrUpdateNode]
  by_cases hk : k = normalizeLabel label
  · rw [if_pos hk]
    cases hc : lookupKey (normalizeLabel label) m with
    | none =>
      subst hk
      rw [hc]
      simp [optNodeHasSource]
    | some n =>
      subst hk
      rw [hc]
      show q ∈ (nodeAddSource source n).sources ↔ _
      rw [nodeAddSource_mem]
      simp [optNodeHasSource]
  · rw [if_neg hk]
    have : ¬(normalizeLabel label = k) := fun hc => hk hc.symm
    tauto

theorem hasSource_buildEntityMap_fold (ms : List (String × NodeType × String)) :
    ∀ (m : List (String × GraphNode)) (k q : String),
      optNodeHasSource q
          (lookupKey k (ms.foldl (fun m x => addOrUpdateNode x.1 x.2.1 x.2.2 m) m)) ↔
        optNodeHasSource q (lookupKey k m) ∨
          ∃ x ∈ ms, normalizeLabel x.1 = k ∧ x.2.2 = q := by
  induction ms with
  | nil => intro m k q; simp
  | cons x ms ih =>
    intro m k q
    simp only [List.foldl_cons]
    rw [ih, hasSource_addOrUpdateNode]
    simp only [List.mem_cons]
    constructor
    · rintro ((h | ⟨h1, h2⟩) | ⟨y, hy, h1, h2⟩)
      · exact Or.inl h
      · exact Or.inr ⟨x, Or.inl rfl, h1, h2.symm⟩
      · exact Or.inr ⟨y, Or.inr hy, h1, h2⟩
    · rintro (h | ⟨y, hy | hy, h1, h2⟩)
      · exact Or.inl (Or.inl h)
      · subst hy
        exact Or.inl (Or.inr ⟨h1, h2.symm⟩)
      · exact Or.inr ⟨y, hy, h1, h2⟩

theorem mem_of_lookupKey {β : Type} (m : List (String × β)) (k : String) (v : β)
    (h : lookupKey k m = some v) : (k, v) ∈ m := by
  induction m with
  | nil => exact absurd h (by simp [lookupKey])
  | cons kv rest ih =>
    simp only [lookupKey] at h
    by_cases hk : kv.1 = k
    · rw [if_pos hk] at h
      have hv : kv.2 = v := Option.some.inj h
      have : (k, v) = kv := by
        calc (k, v) = (kv.1, kv.2) := by rw [hk, hv]
          _ = kv := rfl
      rw [this]
      exact List.mem_cons_self kv rest
    · rw [if_neg hk] at h
      exact List.mem_cons_of_mem _ (ih h)

theorem nodeAddSource_label (source : String) (n : GraphNode) :
    (nodeAddSource source n).label = n.label := by
  unfold nodeAddSource
  by_cases hc : n.sources.contains source
  · rw [if_pos hc]
  · rw [if_neg hc]

theorem addOrUpdateNode_key_inv (label : String) (ty : NodeType) (source : String)
    (m : List (String × GraphNode))
    (h : ∀ kv ∈ m, kv.1 = normalizeLabel kv.2.label) :
    ∀ kv ∈ addOrUpdateNode label ty source m, kv.1 = normalizeLabel kv.2.label := by
  unfold addOrUpdateNode
  cases hc : lookupKey (normalizeLabel label) m with
  | some n =>
    intro kv hkv
    simp only [List.mem_map] at hkv
    obtain ⟨kv0, hkv0, rfl⟩ := hkv
    by_cases hk : kv0.1 = normalizeLabel label
    · simp only [if_pos hk, nodeAddSource_label]
      exact h kv0 hkv0
    · simp only [if_neg hk]
      exact h kv0 hkv0
  | none =>
    intro kv hkv
    rcases List.mem_append.mp hkv with hkv | hkv
    · exact h kv hkv
    · simp only [List.mem_singleton] at hkv
      subst hkv
      rfl

theorem buildEntityMap_key_inv (ms : List (String × NodeType × String)) :
    ∀ kv ∈ buildEntityMap ms, kv.1 = normalizeLabel kv.2.label := by
  have haux : ∀ (ms2 : List (String × NodeType × String)) (m : List (String × GraphNode)),
      (∀ kv ∈ m, kv.1 = normalizeLabel kv.2.label) →
      ∀ kv ∈ ms2.foldl (fun m x => addOrUpdateNode x.1 x.2.1 x.2.2 m) m,
        kv.1 = normalizeLabel kv.2.label := by
    intro ms2
    induction ms2 with
    | nil => intro m h; exact h
    | cons x ms2 ih =>
      intro m h
      exact ih _ (addOrUpdateNode_key_inv x.1 x.2.1 x.2.2 m h)
  exact haux ms [] (by simp)

theorem keys_addOrUpdateNode_nodup (label : String) (ty : NodeType) (source : String)
    (m : List (String × GraphNode)) (h : (m.map Prod.fst).Nodup) :
    ((addOrUpdateNode label ty source m).map Prod.fst).Nodup := by
  unfold addOrUpdateNode
  cases hl : lookupKey (normalizeLabel label) m with
  | some n =>
    show ((m.map (fun kv =>
        (kv.1, if kv.1 = normalizeLabel label then nodeAddSource source kv.2 else kv.2))).map
        Prod.fst).Nodup
    rw [keys_map_values (fun k v => if k = normalizeLabel label then nodeAddSource source v else v)]
    exact h
  | none =>
    show (((m ++ [(normalizeLabel label,
        (⟨"node_" ++ toString m.length, ty, label, [source]⟩ : GraphNode))]).map
        Prod.fst)).Nodup
    rw [List.map_append, List.nodup_append]
    refine ⟨h, List.nodup_singleton _, ?_⟩
    intro a ha hb
    simp only [List.map_cons, List.map_nil, List.mem_singleton] at hb
    exact (lookupKey_eq_none_iff m (normalizeLabel label)).mp hl (hb ▸ ha)

theorem buildEntityMap_keys_nodup (ms : List (String × NodeType × String)) :
    ((buildEntityMap ms).map Prod.fst).Nodup := by
  have haux : ∀ (ms2 : List (String × NodeType × String)) (m : List (String × GraphNode)),
      (m.map Prod.fst).Nodup →
      ((ms2.foldl (fun m x => addOrUpdateNode x.1 x.2.1 x.2.2 m) m).map Prod.fst).Nodup := by
    intro ms2
    induction ms2 with
    | nil => intro m h; exact h
    | cons x ms2 ih =>
      intro m h
      exact ih _ (keys_addOrUpdateNode_nodup x.1 x.2.1 x.2.2 m h)
  exact haux ms [] (by simp)

theorem graphNodes_labels_eq_keys (ms : List (String × NodeType × String)) :
    (graphNodesOf ms).map (fun n => normalizeLabel n.label) =
      (buildEntityMap ms).map Prod.fst := by
  unfold graphNodesOf
  rw [List.map_map]
  refine List.map_congr_left ?_
  intro kv hkv
  exact ((buildEntityMap_key_inv ms) kv hkv).symm

/-- Claim C8: two entity/concept mentions whose labels agree after trimming
and case-folding merge into a single graph node whose sources are exactly the
union of all matching mentions' file paths, and no two produced nodes share a
normalized label. -/
theorem graph_node_merge (mentions : List (String × NodeType × String))
    (x : String × NodeType × String) (hx : x ∈ mentions) :
    ((graphNodesOf mentions).map (fun n => normalizeLabel n.label)).Nodup ∧
    ∃ n ∈ graphNodesOf mentions,
      normalizeLabel n.label = normalizeLabel x.1 ∧
      ∀ q, q ∈ n.sources ↔
        ∃ y ∈ mentions, normalizeLabel y.1 = normalizeLabel x.1 ∧ y.2.2 = q := by
  have hnodup : ((graphNodesOf mentions).map (fun n => normalizeLabel n.label)).Nodup := by
    rw [graphNodes_labels_eq_keys]
    exact buildEntityMap_keys_nodup mentions
  refine ⟨hnodup, ?_⟩
  have hsrc := hasSource_buildEntityMap_fold mentions [] (normalizeLabel x.1) x.2.2
  have hhit : optNodeHasSource x.2.2
      (lookupKey (normalizeLabel x.1) (buildEntityMap mentions)) := by
    show optNodeHasSource x.2.2 (lookupKey (normalizeLabel x.1)
      (mentions.foldl (fun m y => addOrUpdateNode y.1 y.2.1 y.2.2 m) []))
    rw [hsrc]
    exact Or.inr ⟨x, hx, rfl, rfl⟩
  cases hn : lookupKey (normalizeLabel x.1) (buildEntityMap mentions) with
  | none =>
    rw [hn] at hhit
    exact absurd hhit id
  | some n =>
    refine ⟨n, ?_, ?_, ?_⟩
    · exact List.mem_map_of_mem Prod.snd (mem_of_lookupKey _ _ _ hn)
    · exact ((buildEntityMap_key_inv mentions) _ (mem_of_lookupKey _ _ _ hn)).symm
    · intro q
      have hq := hasSource_buildEntityMap_fold mentions [] (normalizeLabel x.1) q
      show q ∈ n.sources ↔ _
      have : optNodeHasSource q (some n) ↔ _ := hn ▸ hq
      simpa [optNodeHasSource, lookupKey] using this

/-- The spec scenario: "Acme Corp" from `a.txt` and "acme corp " (trailing
space) from `b.txt`. -/
def demoMentions : List (String × NodeType × String) :=
  [("Acme Corp", NodeType.entity, "a.txt"), ("acme corp ", NodeType.entity, "b.txt")]

theorem graph_node_merge_witness :
    ("Acme Corp", NodeType.entity, "a.txt") ∈ demoMentions ∧
      (((graphNodesOf demoMentions).map (fun n => normalizeLabel n.label)).Nodup ∧
        ∃ n ∈ graphNodesOf demoMentions,
          normalizeLabel n.label = normalizeLabel "Acme Corp" ∧
          ∀ q, q ∈ n.sources ↔
            ∃ y ∈ demoMentions, normalizeLabel y.1 = normalizeLabel "Acme Corp" ∧
              y.2.2 = q) :=
  ⟨by decide,
    graph_node_merge demoMentions ("Acme Corp", NodeType.entity, "a.txt") (by decide)⟩

/-- `EntityCluster` from `types.ts`. -/
structure EntityCluster where
  id : String
  label : String
  entities : List GraphNode
  centroid : List ℚ
  coherenceScore : ℚ
deriving DecidableEq, Repr

/-- Result shape of the external `ml-kmeans` call: per-node cluster
assignments and per-cluster centroids. -/
structure KMeansResult where
  clusters : List ℕ
  centroids : List (List ℚ)
deriving DecidableEq, Repr

/-- Insertion-ordered deduplication (JS `Set` iteration order, and the
first-appearance order of `Map` keys). -/
def dedupKeepFirstAux {α : Type} [DecidableEq α] (seen : List α) : List α → List α
  | [] => []
  | x :: xs =>
    if seen.contains x then dedupKeepFirstAux seen xs
    else x :: dedupKeepFirstAux (x :: seen) xs

/-- Insertion-ordered word counting (`wordCounts` Map of the cluster labeller,
lines 125–130). -/
def countOcc (ws : List String) : List (String × ℕ) :=
  ws.foldl
    (fun m w =>
      match lookupKey w m with
      | none => m ++ [(w, 1)]
      | some _ => m.map (fun kv => (kv.1, if kv.1 = w then kv.2 + 1 else kv.2)))
    []

/-- JS `w.charAt(0).toUpperCase() + w.slice(1)` (identity on the empty
string). -/
def jsCapitalize (w : String) : String :=
  match w.data with
  | [] => ""
  | c :: cs => String.mk (c.toUpper :: cs)

/-- `euclideanDistance` from `semantic-clustering.ts`; `sqrtQ` is the oracle
for the numeric primitive `Math.sqrt`, and `none` models the `Infinity`
returned on a length mismatch. -/
def euclideanDistance (sqrtQ : ℚ → ℚ) (a b : List ℚ) : Option ℚ :=
  if a.length = b.length then
    some (sqrtQ (((a.zip b).map (fun p => (p.1 - p.2) * (p.1 - p.2))).sum))
  else none

/-- `clusterEntities` from `semantic-clustering.ts`.  `kmeansFn` is the oracle
for the external `ml-kmeans` call (`Except.error` models a thrown exception,
recovered by the trivial-cluster fallback).  Fewer than three nodes
short-circuit to the single trivial cluster of coherence `1.0`.  In the large
branch: binary bag-of-words vectors over the stopword-filtered label
vocabulary, `k = max(2, min(⌊√(n/2)⌋, 10))`, insertion-ordered grouping of
nodes by assigned cluster id, a label from the two most frequent words longer
than three characters, and coherence `max(0, 1 − avgDistance/2)` (zero when
any distance is the `Infinity` of a length mismatch, matching JS arithmetic). -/
def clusterEntities (kmeansFn : List (List ℚ) → ℕ → Except String KMeansResult)
    (sqrtQ : ℚ → ℚ) (nodes : List GraphNode) : List EntityCluster :=
  if nodes.length < 3 then
    [⟨"cluster_0", "All Entities", nodes, [], 1⟩]
  else
    let documents := nodes.map (fun node => removeStopwords (jsSplitWs (jsToLowerCase node.label)))
    let vocabArray := dedupKeepFirstAux [] documents.flatten
    let vectors := documents.map (fun doc =>
      vocabArray.map (fun w => if doc.contains w then (1 : ℚ) else 0))
    let k := max 2 (min (Nat.sqrt (nodes.length / 2)) 10)
    match kmeansFn vectors k with
    | Except.error _ => [⟨"cluster_0", "All Entities", nodes, [], 1⟩]
    | Except.ok result =>
      let assigns := result.clusters.zip nodes
      let clusterIds := dedupKeepFirstAux [] result.clusters
      clusterIds.map (fun cid =>
        let entities := (assigns.filter (fun p => decide (p.1 = cid))).map Prod.snd
        let centroid := result.centroids.getD cid []
        let allWords := (entities.map (fun e => jsSplitWs (jsToLowerCase e.label))).flatten
        let wordCounts := countOcc (allWords.filter (fun w => decide (3 < w.length)))
        let topWords := ((sortDescBy (fun p => (p.2 : ℚ)) wordCounts).take 2).map Prod.fst
        let label :=
          if 0 < topWords.length then String.intercalate " & " (topWords.map jsCapitalize)
          else "Cluster " ++ toString cid
        let distances := entities.map (fun e =>
          euclideanDistance sqrtQ (vectors.getD (nodes.indexOf e) []) centroid)
        let coherenceScore : ℚ :=
          if distances.all Option.isSome then
            let ds := distances.filterMap id
            max 0 (1 - (ds.sum / (ds.length : ℚ)) / 2)
          else 0
        ⟨"cluster_" ++ toString cid, label, entities, centroid, coherenceScore⟩)

/-- Claim C9: with fewer than 3 nodes (including none or exactly two),
`clusterEntities` returns exactly one cluster holding all input nodes with
coherence score `1.0`. -/
theorem clusterEntities_small (kmeansFn : List (List ℚ) → ℕ → Except String KMeansResult)
    (sqrtQ : ℚ → ℚ) (nodes : List GraphNode) (h : nodes.length < 3) :
    clusterEntities kmeansFn sqrtQ nodes = [⟨"cluster_0", "All Entities", nodes, [], 1⟩] ∧
    (clusterEntities kmeansFn sqrtQ nodes).length = 1 ∧
    ∀ c ∈ clusterEntities kmeansFn sqrtQ nodes,
      c.entities = nodes ∧ c.coherenceScore = 1 := by
  have hmain : clusterEntities kmeansFn sqrtQ nodes =
      [⟨"cluster_0", "All Entities", nodes, [], 1⟩] := by
    unfold clusterEntities
    rw [if_pos h]
  refine ⟨hmain, by rw [hmain]; rfl, ?_⟩
  intro c hc
  rw [hmain, List.mem_singleton] at hc
  subst hc
  exact ⟨rfl, rfl⟩

/-- Two graph nodes, below the clustering threshold. -/
def demoNodes : List GraphNode :=
  [⟨"node_0", NodeType.entity, "Acme Corp", ["a.txt"]⟩,
   ⟨"node_1", NodeType.entity, "Beta LLC", ["b.txt"]⟩]

/-- A k-means oracle that is never consulted below the threshold. -/
def demoKMeans : List (List ℚ) → ℕ → Except String KMeansResult :=
  fun _ _ => Except.error "unused"

theorem clusterEntities_small_witness :
    demoNodes.length < 3 ∧
      (clusterEntities demoKMeans (fun q => q) demoNodes =
          [⟨"cluster_0", "All Entities", demoNodes, [], 1⟩] ∧
        (clusterEntities demoKMeans (fun q => q) demoNodes).length = 1 ∧
        ∀ c ∈ clusterEntities demoKMeans (fun q => q) demoNodes,
          c.entities = demoNodes ∧ c.coherenceScore = 1) :=
  ⟨by decide, clusterEntities_small demoKMeans (fun q => q) demoNodes (by decide)⟩
